import Mathlib

/-!
Verification of the pipeline dependency-graph construction of the yagocd
client (`yagocd/resources/pipeline.py` and `yagocd/resources/__init__.py`).

The embedding keeps the data the Python code actually manipulates:

* a material is a record with a `type` and a `description` field;
* a pipeline's raw data is its `name` together with its `materials` list;
* a `PipelineEntity` couples that data with the group it was fetched under
  (`group=None` before `PipelineManager.list` assigns one);
* `PipelineEntity.predecessors` returns the pipeline-kind *materials*
  (`[material for material in self.data.materials if material.type == 'Pipeline']`),
  not pipeline entities — no lookup into the batch happens;
* `PipelineManager.tie_descendants` mutates each entity's `descendants`
  field; the mutable state of the batch is modelled as a list of
  `(entity, descendants field)` pairs, where the field is `none` before the
  pass (Python `None`) and `some` a list of entities afterwards.  The pass
  reads only the immutable material data, so the sequential mutation of the
  Python loop equals a single map over the state.
-/

structure Material where
  type : String
  description : String
deriving DecidableEq

structure PipelineData where
  name : String
  materials : List Material
deriving DecidableEq

structure PipelineEntity where
  data : PipelineData
  group : Option String
deriving DecidableEq

/-- `PipelineEntity.predecessors` (pipeline.py lines 233-242):
`[material for material in self.data.materials if material.type == 'Pipeline']`. -/
def PipelineEntity.predecessors (p : PipelineEntity) : List Material :=
  p.data.materials.filter fun material => material.type == "Pipeline"

/-- The descendant list computed for a pipeline named `name` by the loop body of
`PipelineManager.tie_descendants` (pipeline.py lines 50-57): for each candidate in
the batch, for each material in `candidate.predecessors`, append the candidate when
`material.description == pipeline.data.name`. -/
def computedDescendants (pipelines : List PipelineEntity) (name : String) :
    List PipelineEntity :=
  pipelines.flatMap fun candidate =>
    (candidate.predecessors.filter fun material => material.description == name).map
      fun _ => candidate

/-- The mutable state of a batch: each entity together with the current content of
its `descendants` field (`None` before the tie pass). -/
abbrev TieState := List (PipelineEntity × Option (List PipelineEntity))

/-- `PipelineManager.tie_descendants` (pipeline.py lines 40-57) as a state
transformer: every pipeline's `descendants` field is replaced by the list computed
from the batch's materials.  The pass reads only `candidate.predecessors`, which is
derived from the immutable material data, never from a `descendants` field, so the
in-place loop equals this map. -/
def tiePass (st : TieState) : TieState :=
  st.map fun pe => (pe.1, some (computedDescendants (st.map Prod.fst) pe.1.data.name))

structure PipelineGroup where
  name : String
  pipelines : List PipelineData
deriving DecidableEq

/-- The construction loop of `PipelineManager.list` (pipeline.py lines 73-81): one
`PipelineEntity` per raw record, in group order then record order, carrying the
name of the group it was fetched under. -/
def buildEntities (groups : List PipelineGroup) : List PipelineEntity :=
  groups.flatMap fun g => g.pipelines.map fun d => { data := d, group := some g.name }

/-- `PipelineManager.list` (pipeline.py lines 59-86): build the entities (their
`descendants` fields start as `None`), run `tie_descendants`, return the list. -/
def listPipelines (groups : List PipelineGroup) : TieState :=
  tiePass ((buildEntities groups).map fun p => (p, none))

/-- `PipelineManager.find` (pipeline.py lines 88-97): scan `self.list()` in order
and return the first pipeline whose `data.name` equals the argument, else `None`. -/
def findPipeline (groups : List PipelineGroup) (name : String) :
    Option (PipelineEntity × Option (List PipelineEntity)) :=
  (listPipelines groups).find? fun pe => pe.1.data.name == name

/-- Modelled from the spec: `YagocdUtil.graph_depth_walk` (yagocd/util.py, not
part of the sources here; only its callers `BaseNode.get_predecessors` and
`BaseNode.get_descendants` are).  Per spec section 4.1: a depth-first expansion
from a starting collection, maintaining a visited set keyed by node identity
(the pipeline name), expanding each node at most once, output in depth-first
pre-order; the base node itself is excluded from its own transitive closure,
which the callers below realize by seeding the visited set with the base node.
The loop is embedded with explicit fuel; termination is the fact, proved below,
that the result is the same for every sufficiently large fuel. -/
def graphDepthWalk (adj : String → List String) :
    Nat → List String → List String → List String
  | 0, _, _ => []
  | _ + 1, _, [] => []
  | fuel + 1, visited, n :: rest =>
    if n ∈ visited then graphDepthWalk adj fuel visited rest
    else n :: graphDepthWalk adj fuel (n :: visited) (adj n ++ rest)

/-- The relationship state of a batch of `BaseNode`s, keyed by node identity:
each node's name paired with the names held by one of its adjacency fields
(`_predecessors` or `_descendants`). -/
abbrev NodeGraph := List (String × List String)

/-- Reading a node's adjacency field: the entry of the first node with the given
name, or the empty list (a fresh `BaseNode`'s fields are empty lists). -/
def adjOf (g : NodeGraph) (n : String) : List String :=
  match g.find? fun e => e.1 == n with
  | some e => e.2
  | none => []

/-- Every name mentioned by the graph. -/
def graphUniv (g : NodeGraph) : List String :=
  g.flatMap fun e => e.1 :: e.2

/-- Fuel cost attributed to one unvisited node: one step to expand it plus one
step to later pop each neighbour it pushes. -/
def walkWeight (adj : String → List String) (n : String) : Nat :=
  1 + (adj n).length

/-- Fuel sufficient to finish the walk from a given configuration: one step per
stack entry plus the cost of every node not yet visited. -/
def walkBound (adj : String → List String) (univ visited stack : List String) : Nat :=
  stack.length + ((univ.filter fun n => decide (n ∉ visited)).map (walkWeight adj)).sum

/-- Canonical fuel for a whole graph, an upper bound of `walkBound` for every
start configuration of `transitiveWalkFrom`. -/
def graphFuel (g : NodeGraph) : Nat :=
  1 + (graphUniv g).length + ((graphUniv g).map (walkWeight (adjOf g))).sum

/-- `BaseNode.get_predecessors`/`get_descendants` with `transitive=True`
(resources/__init__.py lines 68-103): walk the adjacency from the node's direct
neighbours; the node itself is in the visited set from the start, so it is
excluded from its own transitive closure (spec section 4.1). -/
def transitiveWalkFrom (g : NodeGraph) (n : String) : List String :=
  graphDepthWalk (adjOf g) (graphFuel g) [n] (adjOf g n)

/-- The names of the descendants `tie_descendants` computes for a given name. -/
def descendantNames (pipelines : List PipelineEntity) (n : String) : List String :=
  (computedDescendants pipelines n).map fun c => c.data.name

/-- The descendant-edge graph of a tied batch, keyed by pipeline name. -/
def descendantGraph (pipelines : List PipelineEntity) : NodeGraph :=
  pipelines.map fun p => (p.data.name, descendantNames pipelines p.data.name)

/-- Transitive descendants of the pipeline named `n` in a tied batch, as the
depth-first walk over the descendant edges. -/
def transitiveDescendants (pipelines : List PipelineEntity) (n : String) : List String :=
  transitiveWalkFrom (descendantGraph pipelines) n

/-! Concrete batches used by the scenario and cycle claims. -/

def m21 : Material := ⟨"Pipeline", "P1"⟩

def m32 : Material := ⟨"Pipeline", "P2"⟩

def p1 : PipelineEntity := ⟨⟨"P1", []⟩, some "g"⟩

def p2 : PipelineEntity := ⟨⟨"P2", [m21]⟩, some "g"⟩

def p3 : PipelineEntity := ⟨⟨"P3", [m32]⟩, some "g"⟩

def scenarioBatch : List PipelineEntity := [p1, p2, p3]

/-- Two `BaseNode`s with mutual predecessor edges. -/
def mutualGraph : NodeGraph := [("A", ["B"]), ("B", ["A"])]

/-- The raw record batch of the three-pipeline scenario, as one pipeline group. -/
def scenarioGroups : List PipelineGroup :=
  [⟨"g", [⟨"P1", []⟩, ⟨"P2", [m21]⟩, ⟨"P3", [m32]⟩]⟩]

/-- The descendant list as claim C3 words it: the candidates listing the pipeline
as a predecessor (by the `description` field naming it), each once, in batch
order.  Written from the claim's words, to be compared with
`computedDescendants`, which is translated from the code. -/
def claimedDescendants (pipelines : List PipelineEntity) (name : String) :
    List PipelineEntity :=
  pipelines.filter fun candidate =>
    candidate.predecessors.any fun material => material.description == name

/-- A pipeline with two identical pipeline-kind materials naming `A`. -/
def dupX : PipelineEntity := ⟨⟨"A", []⟩, some "g"⟩

def dupY : PipelineEntity :=
  ⟨⟨"B", [⟨"Pipeline", "A"⟩, ⟨"Pipeline", "A"⟩]⟩, some "g"⟩

/-- A pipeline-kind material naming a pipeline absent from every batch below. -/
def ghostMaterial : Material := ⟨"Pipeline", "Ghost"⟩

def ghostPipeline : PipelineEntity := ⟨⟨"P1", [ghostMaterial]⟩, some "g"⟩

def ghostBatch : List PipelineEntity := [ghostPipeline]

/-- Dropping one material from a pipeline's raw data. -/
def removeMaterial (p : PipelineEntity) (m : Material) : PipelineEntity :=
  { p with data := { p.data with materials := p.data.materials.erase m } }

/-- Two groups whose single pipelines share the name `X`. -/
def dupNameGroups : List PipelineGroup :=
  [⟨"g1", [⟨"X", []⟩]⟩, ⟨"g2", [⟨"X", [⟨"Git", "src"⟩]⟩]⟩]

/-! For claim C7 the mandatory `name` field must be allowed to be absent, and the
attribute access `pipeline.data.name` becomes fallible: an `EasyDict` raises
`AttributeError` for a missing key.  The tie pass is re-embedded over such raw
records with `Except`, following the Python evaluation order: the comparison
`material.description == pipeline.data.name` re-reads the `name` attribute for
every material of every candidate, so the first pipeline-kind material reached
while processing a nameless pipeline raises. -/

structure RawPipelineData where
  name : Option String
  materials : List Material
deriving DecidableEq

/-- `predecessors` over a raw record (the `materials` field is present; claim C7
is about the `name` field). -/
def rawPredecessors (p : RawPipelineData) : List Material :=
  p.materials.filter fun material => material.type == "Pipeline"

/-- Attribute access `pipeline.data.name`. -/
def nameAttr (p : RawPipelineData) : Except String String :=
  match p.name with
  | some n => Except.ok n
  | none => Except.error "AttributeError: name"

/-- The inner loop of `tie_descendants` over one candidate's pipeline-kind
materials, appending the candidate on each matching comparison. -/
def scanMaterials (p c : RawPipelineData) (acc : List RawPipelineData) :
    List Material → Except String (List RawPipelineData)
  | [] => Except.ok acc
  | m :: ms =>
    match nameAttr p with
    | Except.error e => Except.error e
    | Except.ok n => scanMaterials p c (if m.description == n then acc ++ [c] else acc) ms

/-- The middle loop of `tie_descendants` over the candidates. -/
def scanCandidates (p : RawPipelineData) (acc : List RawPipelineData) :
    List RawPipelineData → Except String (List RawPipelineData)
  | [] => Except.ok acc
  | c :: cs =>
    match scanMaterials p c acc (rawPredecessors c) with
    | Except.error e => Except.error e
    | Except.ok acc2 => scanCandidates p acc2 cs

/-- The outer loop of `tie_descendants`: every pipeline paired with the
descendant list assigned to it, or the first raised error. -/
def tieAll (pipelines : List RawPipelineData) :
    List RawPipelineData → List (RawPipelineData × List RawPipelineData) →
      Except String (List (RawPipelineData × List RawPipelineData))
  | [], acc => Except.ok acc
  | q :: qs, acc =>
    match scanCandidates q [] pipelines with
    | Except.error e => Except.error e
    | Except.ok ds => tieAll pipelines qs (acc ++ [(q, ds)])

/-- `tie_descendants` over raw records whose `name` may be missing. -/
def rawTieDescendants (pipelines : List RawPipelineData) :
    Except String (List (RawPipelineData × List RawPipelineData)) :=
  tieAll pipelines pipelines []

/-- A record without the mandatory `name` field and no pipeline-kind material. -/
def namelessQuiet : RawPipelineData := ⟨none, [⟨"Git", "repo"⟩]⟩

/-- A record without the mandatory `name` field but with a pipeline-kind material. -/
def namelessLoud : RawPipelineData := ⟨none, [⟨"Pipeline", "Q"⟩]⟩

/-- The element `find` returns on the duplicate-name batch: the earliest-fetched
pipeline named `X`, already tied (its descendant list is empty). -/
def firstX : PipelineEntity × Option (List PipelineEntity) :=
  (⟨⟨"X", []⟩, some "g1"⟩, some [])

/-! Helper lemmas about the walk's fuel bound. -/

theorem graphDepthWalk_nil (adj : String → List String) (fuel : Nat)
    (visited : List String) : graphDepthWalk adj fuel visited [] = [] := by
  cases fuel <;> rfl

theorem sum_map_filter_le (w : String → Nat) (q : String → Bool) (l : List String) :
    ((l.filter q).map w).sum ≤ (l.map w).sum := by
  induction l with
  | nil => simp
  | cons a t ih =>
    cases hq : q a
    · simp only [List.filter_cons, hq, Bool.false_eq_true, if_false, List.map_cons,
        List.sum_cons]
      exact le_trans ih (Nat.le_add_left _ _)
    · simp only [List.filter_cons, hq, if_true, List.map_cons, List.sum_cons]
      exact Nat.add_le_add_left ih _

theorem sum_map_filter_ne (w : String → Nat) (n : String) :
    ∀ l : List String, n ∈ l →
      w n + (((l.filter fun m => decide (m ≠ n)).map w)).sum ≤ (l.map w).sum := by
  intro l
  induction l with
  | nil => intro h; cases h
  | cons a t ih =>
    intro h
    by_cases ha : a = n
    · subst ha
      have hle := sum_map_filter_le w (fun m => decide (m ≠ a)) t
      rw [List.filter_cons, if_neg (by simp)]
      simp only [List.map_cons, List.sum_cons]
      omega
    · have hmem : n ∈ t := by
        rcases List.mem_cons.mp h with h1 | h2
        · exact absurd h1.symm ha
        · exact h2
      have hle := ih hmem
      have hane : (decide (a ≠ n)) = true := by simp [ha]
      simp only [List.filter_cons, hane, if_true, List.map_cons, List.sum_cons]
      omega

theorem walkBound_cons (adj : String → List String) (univ visited rest : List String)
    (n : String) :
    walkBound adj univ visited (n :: rest) = walkBound adj univ visited rest + 1 := by
  simp only [walkBound, List.length_cons]
  omega

theorem walkBound_visit (adj : String → List String) (univ visited rest : List String)
    (n : String) (hn : n ∈ univ) (hnv : n ∉ visited) :
    walkBound adj univ (n :: visited) (adj n ++ rest) + 2 ≤
      walkBound adj univ visited (n :: rest) := by
  have hfilter : (univ.filter fun m => decide (m ∉ n :: visited))
      = (univ.filter fun m => decide (m ∉ visited)).filter fun m => decide (m ≠ n) := by
    rw [List.filter_filter]
    apply List.filter_congr
    intro m _
    by_cases hmn : m = n
    · subst hmn; simp
    · by_cases hmv : m ∈ visited <;> simp [hmn, hmv]
  have hmemF : n ∈ univ.filter fun m => decide (m ∉ visited) :=
    List.mem_filter.mpr ⟨hn, by simp [hnv]⟩
  have hsum := sum_map_filter_ne (walkWeight adj) n
    (univ.filter fun m => decide (m ∉ visited)) hmemF
  have hw : walkWeight adj n = 1 + (adj n).length := rfl
  simp only [walkBound, hfilter, List.length_append, List.length_cons]
  omega

theorem graphDepthWalk_stable (adj : String → List String) (univ : List String)
    (hadj : ∀ s, ∀ x ∈ adj s, x ∈ univ) :
    ∀ f1 f2 visited stack, (∀ x ∈ stack, x ∈ univ) →
      walkBound adj univ visited stack ≤ f1 → walkBound adj univ visited stack ≤ f2 →
      graphDepthWalk adj f1 visited stack = graphDepthWalk adj f2 visited stack := by
  intro f1
  induction f1 with
  | zero =>
    intro f2 visited stack _ h1 _
    cases stack with
    | nil => rw [graphDepthWalk_nil, graphDepthWalk_nil]
    | cons a t =>
      exfalso
      rw [walkBound_cons] at h1
      omega
  | succ f ih =>
    intro f2 visited stack hs h1 h2
    cases stack with
    | nil => rw [graphDepthWalk_nil, graphDepthWalk_nil]
    | cons n rest =>
      rw [walkBound_cons] at h1 h2
      cases f2 with
      | zero => omega
      | succ f2' =>
        simp only [graphDepthWalk]
        by_cases hv : n ∈ visited
        · simp only [hv, if_true]
          exact ih f2' visited rest (fun x hx => hs x (List.mem_cons_of_mem _ hx))
            (by omega) (by omega)
        · simp only [hv, if_false]
          have hnu : n ∈ univ := hs n (List.mem_cons_self n rest)
          have hstep := walkBound_visit adj univ visited rest n hnu hv
          rw [walkBound_cons] at hstep
          have hsub : ∀ x ∈ adj n ++ rest, x ∈ univ := by
            intro x hx
            rcases List.mem_append.mp hx with hx1 | hx2
            · exact hadj n x hx1
            · exact hs x (List.mem_cons_of_mem _ hx2)
          exact congrArg (n :: ·) (ih f2' (n :: visited) (adj n ++ rest) hsub
            (by omega) (by omega))

theorem length_le_length_flatMap {α β : Type} (f : α → List β) :
    ∀ (l : List α) (a : α), a ∈ l → (f a).length ≤ (l.flatMap f).length := by
  intro l
  induction l with
  | nil => intro a h; cases h
  | cons b t ih =>
    intro a h
    rw [List.flatMap_cons, List.length_append]
    rcases List.mem_cons.mp h with h1 | h2
    · subst h1; exact Nat.le_add_right _ _
    · exact le_trans (ih a h2) (Nat.le_add_left _ _)

theorem adjOf_subset_univ (g : NodeGraph) :
    ∀ s, ∀ x ∈ adjOf g s, x ∈ graphUniv g := by
  intro s x hx
  unfold adjOf at hx
  cases hfind : g.find? fun e => e.1 == s with
  | none => rw [hfind] at hx; cases hx
  | some e =>
    rw [hfind] at hx
    have he : e ∈ g := List.mem_of_find?_eq_some hfind
    exact List.mem_flatMap.mpr ⟨e, he, List.mem_cons_of_mem _ hx⟩

theorem adjOf_length_le (g : NodeGraph) (n : String) :
    (adjOf g n).length ≤ (graphUniv g).length := by
  unfold adjOf
  cases hfind : g.find? fun e => e.1 == n with
  | none => simp
  | some e =>
    show e.2.length ≤ (graphUniv g).length
    have he : e ∈ g := List.mem_of_find?_eq_some hfind
    have := length_le_length_flatMap (fun e : String × List String => e.1 :: e.2) g e he
    simp only [List.length_cons] at this
    unfold graphUniv
    omega

theorem walkBound_le_graphFuel (g : NodeGraph) (n : String) :
    walkBound (adjOf g) (graphUniv g) [n] (adjOf g n) ≤ graphFuel g := by
  have h1 := adjOf_length_le g n
  have h2 := sum_map_filter_le (walkWeight (adjOf g))
    (fun m => decide (m ∉ [n])) (graphUniv g)
  simp only [walkBound, graphFuel]
  omega

/-! Helper lemmas about the tie pass and the checked (raw-record) tie pass. -/

theorem mem_computedDescendants (pipelines : List PipelineEntity) (name : String)
    (Y : PipelineEntity) :
    Y ∈ computedDescendants pipelines name ↔
      Y ∈ pipelines ∧ ∃ m ∈ Y.predecessors, m.description = name := by
  unfold computedDescendants
  rw [List.mem_flatMap]
  constructor
  · rintro ⟨c, hc, hmem⟩
    rcases List.mem_map.mp hmem with ⟨m, hm, rfl⟩
    rcases List.mem_filter.mp hm with ⟨hm1, hm2⟩
    exact ⟨hc, m, hm1, by simpa using hm2⟩
  · rintro ⟨hY, m, hm, hdesc⟩
    exact ⟨Y, hY, List.mem_map.mpr ⟨m, List.mem_filter.mpr ⟨hm, by simp [hdesc]⟩, rfl⟩⟩

theorem tiePass_fst (st : TieState) : (tiePass st).map Prod.fst = st.map Prod.fst := by
  unfold tiePass
  rw [List.map_map]
  rfl

theorem filter_erase_of_not {α : Type} [DecidableEq α] (q : α → Bool) (m : α)
    (hq : q m = false) : ∀ l : List α, (l.erase m).filter q = l.filter q := by
  intro l
  induction l with
  | nil => rfl
  | cons a t ih =>
    by_cases ha : a = m
    · subst ha
      rw [List.erase_cons_head, List.filter_cons, if_neg (by simp [hq])]
    · rw [List.erase_cons_tail (by simp [ha]), List.filter_cons, List.filter_cons, ih]

theorem find?_some_split {α : Type} (p : α → Bool) :
    ∀ l : List α, ∀ a, l.find? p = some a →
      p a = true ∧ ∃ l1 l2, l = l1 ++ a :: l2 ∧ ∀ x ∈ l1, p x = false := by
  intro l
  induction l with
  | nil => intro a h; cases h
  | cons b t ih =>
    intro a h
    cases hb : p b
    · rw [List.find?_cons_of_neg t (by simp [hb])] at h
      rcases ih a h with ⟨hpa, l1, l2, heq, hl1⟩
      refine ⟨hpa, b :: l1, l2, by rw [heq]; rfl, ?_⟩
      intro x hx
      rcases List.mem_cons.mp hx with rfl | hx2
      · exact hb
      · exact hl1 x hx2
    · rw [List.find?_cons_of_pos t hb] at h
      cases h
      exact ⟨hb, [], t, rfl, by intro x hx; cases hx⟩

theorem scanMaterials_named (p c : RawPipelineData) (n : String)
    (hname : p.name = some n) :
    ∀ ms acc, ∃ r, scanMaterials p c acc ms = Except.ok r := by
  intro ms
  induction ms with
  | nil => intro acc; exact ⟨acc, rfl⟩
  | cons m t ih =>
    intro acc
    rcases ih (if m.description == n then acc ++ [c] else acc) with ⟨r, hr⟩
    exact ⟨r, by simp only [scanMaterials, nameAttr, hname]; exact hr⟩

theorem scanCandidates_named (p : RawPipelineData) (n : String)
    (hname : p.name = some n) :
    ∀ cs acc, ∃ r, scanCandidates p acc cs = Except.ok r := by
  intro cs
  induction cs with
  | nil => intro acc; exact ⟨acc, rfl⟩
  | cons c t ih =>
    intro acc
    rcases scanMaterials_named p c n hname (rawPredecessors c) acc with ⟨acc2, hacc2⟩
    rcases ih acc2 with ⟨r, hr⟩
    exact ⟨r, by simp only [scanCandidates, hacc2]; exact hr⟩

theorem scanMaterials_nameless (p c : RawPipelineData) (hname : p.name = none)
    (m : Material) (ms : List Material) (acc : List RawPipelineData) :
    scanMaterials p c acc (m :: ms) = Except.error "AttributeError: name" := by
  simp only [scanMaterials, nameAttr, hname]

theorem scanCandidates_nameless (p : RawPipelineData) (hname : p.name = none) :
    ∀ cs, (∃ c ∈ cs, rawPredecessors c ≠ []) →
      ∀ acc, scanCandidates p acc cs = Except.error "AttributeError: name" := by
  intro cs
  induction cs with
  | nil => rintro ⟨c, hc, _⟩; cases hc
  | cons c t ih =>
    rintro ⟨c0, hc0, hpred⟩ acc
    cases hp : rawPredecessors c with
    | nil =>
      have hstep : scanMaterials p c acc (rawPredecessors c) = Except.ok acc := by
        rw [hp]; rfl
      have hc0t : c0 ∈ t := by
        rcases List.mem_cons.mp hc0 with rfl | h2
        · exact absurd hp hpred
        · exact h2
      simp only [scanCandidates, hstep]
      exact ih ⟨c0, hc0t, hpred⟩ acc
    | cons m ms =>
      have hstep : scanMaterials p c acc (rawPredecessors c)
          = Except.error "AttributeError: name" := by
        rw [hp]; exact scanMaterials_nameless p c hname m ms acc
      simp only [scanCandidates, hstep]

theorem scanMaterials_no_materials (p c : RawPipelineData) (acc : List RawPipelineData) :
    scanMaterials p c acc [] = Except.ok acc := rfl

theorem scanCandidates_no_materials (p : RawPipelineData) :
    ∀ cs, (∀ c ∈ cs, rawPredecessors c = []) →
      ∀ acc, scanCandidates p acc cs = Except.ok acc := by
  intro cs
  induction cs with
  | nil => intro _ acc; rfl
  | cons c t ih =>
    intro h acc
    have hstep : scanMaterials p c acc (rawPredecessors c) = Except.ok acc := by
      rw [h c (List.mem_cons_self c t)]; rfl
    simp only [scanCandidates, hstep]
    exact ih (fun x hx => h x (List.mem_cons_of_mem c hx)) acc

theorem tieAll_no_materials (pipelines : List RawPipelineData)
    (hmat : ∀ c ∈ pipelines, rawPredecessors c = []) :
    ∀ qs acc, ∃ r, tieAll pipelines qs acc = Except.ok r := by
  intro qs
  induction qs with
  | nil => intro acc; exact ⟨acc, rfl⟩
  | cons q t ih =>
    intro acc
    have hq : scanCandidates q [] pipelines = Except.ok [] :=
      scanCandidates_no_materials q pipelines hmat []
    rcases ih (acc ++ [(q, [])]) with ⟨r, hr⟩
    exact ⟨r, by simp only [tieAll, hq]; exact hr⟩

theorem tieAll_nameless (pipelines : List RawPipelineData)
    (hmat : ∃ c ∈ pipelines, rawPredecessors c ≠ []) :
    ∀ qs, (∃ q ∈ qs, q.name = none) →
      ∀ acc, tieAll pipelines qs acc = Except.error "AttributeError: name" := by
  intro qs
  induction qs with
  | nil => rintro ⟨q, hq, _⟩; cases hq
  | cons q t ih =>
    rintro ⟨q0, hq0, hq0name⟩ acc
    cases hqn : q.name with
    | none =>
      have hstep : scanCandidates q [] pipelines = Except.error "AttributeError: name" :=
        scanCandidates_nameless q hqn pipelines hmat []
      simp only [tieAll, hstep]
    | some n =>
      rcases scanCandidates_named q n hqn pipelines [] with ⟨ds, hds⟩
      have hq0t : q0 ∈ t := by
        rcases List.mem_cons.mp hq0 with rfl | h2
        · rw [hqn] at hq0name; cases hq0name
        · exact h2
      simp only [tieAll, hds]
      exact ih ⟨q0, hq0t, hq0name⟩ (acc ++ [(q, ds)])

theorem computedDescendants_cons (c : PipelineEntity) (t : List PipelineEntity)
    (name : String) :
    computedDescendants (c :: t) name
      = ((c.predecessors.filter fun m => m.description == name).map fun _ => c)
          ++ computedDescendants t name := by
  unfold computedDescendants
  rw [List.flatMap_cons]

theorem claimedDescendants_cons (c : PipelineEntity) (t : List PipelineEntity)
    (name : String) :
    claimedDescendants (c :: t) name
      = if (c.predecessors.any fun m => m.description == name) = true then
          c :: claimedDescendants t name
        else claimedDescendants t name := by
  unfold claimedDescendants
  rw [List.filter_cons]

/-! The claims. -/

/-- C1 (confirmed): after `tie_descendants` has run over a batch, for every two
pipelines X and Y of that batch, Y is a member of X's descendant list iff X is a
member of Y's predecessor list — where the predecessor list holds pipeline-kind
material records, so X's membership is an entry whose `description` equals X's
name. -/
theorem tie_descendants_symmetric (st : TieState) (X Y : PipelineEntity)
    (dX dY : List PipelineEntity)
    (hX : (X, some dX) ∈ tiePass st) (hY : (Y, some dY) ∈ tiePass st) :
    Y ∈ dX ↔ ∃ m ∈ Y.predecessors, m.description = X.data.name := by
  unfold tiePass at hX hY
  rcases List.mem_map.mp hX with ⟨pe, hpe, heqX⟩
  rcases List.mem_map.mp hY with ⟨qe, hqe, heqY⟩
  rw [Prod.mk.injEq] at heqX heqY
  obtain ⟨hX1, hX2⟩ := heqX
  obtain ⟨hY1, _⟩ := heqY
  have hYmem : Y ∈ st.map Prod.fst := List.mem_map.mpr ⟨qe, hqe, hY1⟩
  have hdX : dX = computedDescendants (st.map Prod.fst) X.data.name := by
    rw [← hX1]
    exact (Option.some.inj hX2).symm
  rw [hdX, mem_computedDescendants]
  constructor
  · rintro ⟨_, hm⟩
    exact hm
  · intro hm
    exact ⟨hYmem, hm⟩

theorem tie_descendants_symmetric_witness :
    p2 ∈ [p2] ↔ ∃ m ∈ p2.predecessors, m.description = p1.data.name :=
  tie_descendants_symmetric (scenarioBatch.map fun p => (p, none)) p1 p2 [p2] [p3]
    (by decide) (by decide)

/-- C2 counterexample: the pipeline-kind material naming `Ghost`, a pipeline
absent from the batch, is not excluded from the predecessor list — it stays
there, and no predecessor entry is a pipeline of the batch. -/
theorem dangling_material_kept :
    ghostMaterial ∈ ghostPipeline.predecessors ∧
      ghostPipeline ∈ ghostBatch ∧
      ∀ q ∈ ghostBatch, q.data.name ≠ ghostMaterial.description := by
  decide

/-- C2 amended (corrected): a pipeline-kind material whose `description` names a
pipeline absent from the batch is kept in the predecessor list (no lookup is
performed) and raises no error; the dangling reference is inert in descendant
inference — removing that material changes no computed descendant list. -/
theorem dangling_material_inert (l1 l2 : List PipelineEntity) (X : PipelineEntity)
    (m : Material) (_hm : m ∈ X.predecessors)
    (habsent : ∀ q ∈ l1 ++ X :: l2, q.data.name ≠ m.description) :
    ∀ q ∈ l1 ++ X :: l2,
      descendantNames (l1 ++ X :: l2) q.data.name
        = descendantNames (l1 ++ removeMaterial X m :: l2) q.data.name := by
  intro q hq
  have hn : (m.description == q.data.name) = false :=
    beq_eq_false_iff_ne.mpr fun h => habsent q hq h.symm
  have hfilters :
      (removeMaterial X m).predecessors.filter
          (fun mat => mat.description == q.data.name)
        = X.predecessors.filter fun mat => mat.description == q.data.name := by
    show ((X.data.materials.erase m).filter fun mat => mat.type == "Pipeline").filter
        (fun mat => mat.description == q.data.name)
      = (X.data.materials.filter fun mat => mat.type == "Pipeline").filter
        fun mat => mat.description == q.data.name
    rw [List.filter_filter, List.filter_filter]
    have hqm : ((fun mat : Material =>
        (mat.description == q.data.name) && (mat.type == "Pipeline")) m) = false := by
      show ((m.description == q.data.name) && (m.type == "Pipeline")) = false
      rw [hn]
      rfl
    exact filter_erase_of_not _ m hqm X.data.materials
  unfold descendantNames computedDescendants
  rw [List.map_flatMap, List.map_flatMap, List.flatMap_append, List.flatMap_append,
    List.flatMap_cons, List.flatMap_cons]
  congr 1
  congr 1
  rw [List.map_map, List.map_map, hfilters]
  exact List.map_congr_left fun x _ => rfl

theorem dangling_material_inert_witness :
    descendantNames ([] ++ ghostPipeline :: []) ghostPipeline.data.name
      = descendantNames ([] ++ removeMaterial ghostPipeline ghostMaterial :: [])
          ghostPipeline.data.name :=
  dangling_material_inert [] [] ghostPipeline ghostMaterial (by decide) (by decide)
    ghostPipeline (by decide)

/-- C3 counterexample: a candidate with two materials naming the same pipeline
is appended twice by `tie_descendants`, so the descendant list is not the
claimed once-per-candidate selection of the batch. -/
theorem tie_descendants_multiplicity :
    computedDescendants [dupX, dupY] dupX.data.name = [dupY, dupY] ∧
      claimedDescendants [dupX, dupY] dupX.data.name = [dupY] ∧
      computedDescendants [dupX, dupY] dupX.data.name
        ≠ claimedDescendants [dupX, dupY] dupX.data.name := by
  decide

/-- C3 amended (corrected): `tie_descendants` appends Y to X's descendant list
once per predecessor entry of Y whose `description` equals X's name; whenever
every candidate has at most one such entry — in particular one material per
referenced pipeline — X's descendant list is exactly the candidates listing X
as a predecessor, in the batch's order. -/
theorem tie_descendants_characterization (pipelines : List PipelineEntity)
    (name : String)
    (h : ∀ c ∈ pipelines,
      (c.predecessors.filter fun m => m.description == name).length ≤ 1) :
    computedDescendants pipelines name = claimedDescendants pipelines name := by
  induction pipelines with
  | nil => rfl
  | cons c t ih =>
    have hc := h c (List.mem_cons_self c t)
    have ht := fun x hx => h x (List.mem_cons_of_mem c hx)
    rw [computedDescendants_cons, claimedDescendants_cons, ih ht]
    cases hf : c.predecessors.filter fun m => m.description == name with
    | nil =>
      have hany : (c.predecessors.any fun m => m.description == name) = false := by
        rw [List.any_eq_false]
        intro x hx
        simpa using List.filter_eq_nil_iff.mp hf x hx
      rw [hany]
      simp
    | cons m ms =>
      have hms : ms = [] := by
        rw [hf, List.length_cons] at hc
        have : ms.length = 0 := by omega
        exact List.eq_nil_of_length_eq_zero this
      subst hms
      have hmem : m ∈ c.predecessors.filter fun mm => mm.description == name := by
        rw [hf]
        exact List.mem_singleton_self m
      rcases List.mem_filter.mp hmem with ⟨hm1, hm2⟩
      have hany : (c.predecessors.any fun mm => mm.description == name) = true :=
        List.any_eq_true.mpr ⟨m, hm1, hm2⟩
      rw [hany]
      simp

theorem tie_descendants_characterization_witness :
    computedDescendants scenarioBatch "P1" = claimedDescendants scenarioBatch "P1" :=
  tie_descendants_characterization scenarioBatch "P1" (by decide)

/-- C4 (confirmed; transitive walk modelled from the spec): for the batch
[P1 (no materials), P2 (Pipeline material "P1"), P3 (Pipeline material "P2")],
after building: P1's descendants are [P2], P2's are [P3], P3's predecessor list
is the single pipeline-kind material referencing P2, and the depth-first walk of
descendant edges from P1 yields [P2, P3]. -/
theorem scenario_three_pipelines :
    listPipelines scenarioGroups
        = [(p1, some [p2]), (p2, some [p3]), (p3, some [])] ∧
      p3.predecessors = [m32] ∧ m32.description = p2.data.name ∧
      transitiveDescendants scenarioBatch "P1" = ["P2", "P3"] := by
  decide

/-- C5 (walk modelled from the spec): the guarded traversal's result is the same
for every fuel at least `graphFuel` — the visited-set guard makes the walk
terminate with a well-defined (possibly empty) sequence on every graph — and on
the mutual-edge graph A→B, B→A the transitive walk from A returns exactly
["B"]. -/
theorem transitive_walk_terminates (g : NodeGraph) (n : String) (f : Nat)
    (hf : graphFuel g ≤ f) :
    graphDepthWalk (adjOf g) f [n] (adjOf g n) = transitiveWalkFrom g n ∧
      transitiveWalkFrom mutualGraph "A" = ["B"] := by
  constructor
  · exact graphDepthWalk_stable (adjOf g) (graphUniv g) (adjOf_subset_univ g) f
      (graphFuel g) [n] (adjOf g n) (adjOf_subset_univ g n)
      (le_trans (walkBound_le_graphFuel g n) hf) (walkBound_le_graphFuel g n)
  · decide

theorem transitive_walk_terminates_witness :
    (graphDepthWalk (adjOf mutualGraph) (graphFuel mutualGraph + 7) ["A"]
        (adjOf mutualGraph "A") = transitiveWalkFrom mutualGraph "A") ∧
      transitiveWalkFrom mutualGraph "A" = ["B"] :=
  transitive_walk_terminates mutualGraph "A" (graphFuel mutualGraph + 7)
    (Nat.le_add_right _ _)

/-- C6 (confirmed): `list` returns one node per raw pipeline record, in original
fetch order (group order, then record order within each group), each carrying
the name of the group it was fetched under, and the tie pass leaves the entity
sequence unchanged. -/
theorem list_build_order (groups : List PipelineGroup) :
    (listPipelines groups).map Prod.fst = buildEntities groups ∧
      (listPipelines groups).map (fun pe => (pe.1.data, pe.1.group))
        = groups.flatMap fun g => g.pipelines.map fun d => (d, some g.name) := by
  have h1 : (listPipelines groups).map Prod.fst = buildEntities groups := by
    unfold listPipelines
    rw [tiePass_fst, List.map_map]
    exact List.map_id _
  refine ⟨h1, ?_⟩
  have h2 : (listPipelines groups).map (fun pe => (pe.1.data, pe.1.group))
      = ((listPipelines groups).map Prod.fst).map fun p => (p.data, p.group) := by
    rw [List.map_map]
    rfl
  rw [h2, h1]
  unfold buildEntities
  rw [List.map_flatMap]
  congr 1
  funext g0
  rw [List.map_map]
  rfl

/-- C7 counterexample: a batch whose only record lacks the mandatory `name`
field builds without any error — the nameless record is silently admitted into
the tie pass, contradicting the claimed fail-fast data-integrity error. -/
theorem missing_name_admitted :
    rawTieDescendants [namelessQuiet] = Except.ok [(namelessQuiet, [])] := rfl

/-- C7 amended (corrected): a record lacking `name` is silently admitted
whenever no pipeline of the batch has a pipeline-kind material; when some
pipeline has one, the linking pass raises the attribute-access error of the
missing `name` key — not a data-integrity error identifying the record. -/
theorem missing_name_behavior (ps : List RawPipelineData) (p : RawPipelineData)
    (hp : p ∈ ps) (hname : p.name = none) :
    ((∀ c ∈ ps, rawPredecessors c = []) → ∃ r, rawTieDescendants ps = Except.ok r) ∧
      ((∃ c ∈ ps, rawPredecessors c ≠ []) →
        rawTieDescendants ps = Except.error "AttributeError: name") := by
  constructor
  · intro hmat
    exact tieAll_no_materials ps hmat ps []
  · intro hmat
    exact tieAll_nameless ps hmat ps ⟨p, hp, hname⟩ []

theorem missing_name_behavior_witness :
    ((∀ c ∈ [namelessLoud], rawPredecessors c = []) →
        ∃ r, rawTieDescendants [namelessLoud] = Except.ok r) ∧
      ((∃ c ∈ [namelessLoud], rawPredecessors c ≠ []) →
        rawTieDescendants [namelessLoud] = Except.error "AttributeError: name") :=
  missing_name_behavior [namelessLoud] namelessLoud (by decide) (by decide)

/-- C8 (confirmed): an empty record batch — no groups, or groups with no
pipelines — builds to the empty node sequence with no error, and the tie pass
applied to an empty list is a no-op. -/
theorem empty_batch_builds_empty (groups : List PipelineGroup)
    (h : ∀ g ∈ groups, g.pipelines = []) :
    listPipelines groups = [] ∧ listPipelines [] = [] ∧ tiePass [] = [] := by
  refine ⟨?_, rfl, rfl⟩
  unfold listPipelines buildEntities
  rw [List.flatMap_eq_nil_iff.mpr fun g hg => by rw [h g hg]; rfl]
  rfl

theorem empty_batch_builds_empty_witness :
    listPipelines [⟨"g", []⟩] = [] ∧ listPipelines [] = [] ∧ tiePass [] = [] :=
  empty_batch_builds_empty [⟨"g", []⟩] (by decide)

/-- C9 (confirmed): running `tie_descendants` a second time over the same batch
reproduces exactly the same descendant lists, because each pipeline's
predecessor entries are recomputed from immutable material data and the pass
wholly replaces each descendant field. -/
theorem tie_descendants_idempotent (st : TieState) :
    tiePass (tiePass st) = tiePass st := by
  have h : tiePass (tiePass st)
      = (tiePass st).map fun pe =>
          (pe.1, some (computedDescendants ((tiePass st).map Prod.fst)
            pe.1.data.name)) := rfl
  rw [h, tiePass_fst]
  unfold tiePass
  rw [List.map_map]
  rfl

/-- C10 (confirmed): `find` returns the first pipeline, in `list` order, whose
`data.name` equals the argument — so under duplicate names the earliest-fetched
pipeline wins — and returns `None` when no pipeline of the batch has that
name. -/
theorem find_returns_first (groups : List PipelineGroup) (name : String) :
    (findPipeline groups name = none →
        ∀ pe ∈ listPipelines groups, pe.1.data.name ≠ name) ∧
      ∀ pe, findPipeline groups name = some pe →
        pe.1.data.name = name ∧
          ∃ l1 l2, listPipelines groups = l1 ++ pe :: l2 ∧
            ∀ q ∈ l1, q.1.data.name ≠ name := by
  unfold findPipeline
  constructor
  · intro hnone pe hpe
    have hne := List.find?_eq_none.mp hnone pe hpe
    intro hEq
    apply hne
    rw [hEq]
    exact beq_self_eq_true name
  · intro pe hsome
    rcases find?_some_split _ _ pe hsome with ⟨hp, l1, l2, heq, hl1⟩
    refine ⟨beq_iff_eq.mp hp, l1, l2, heq, ?_⟩
    intro q hq
    exact beq_eq_false_iff_ne.mp (hl1 q hq)

theorem find_returns_first_witness :
    firstX.1.data.name = "X" ∧
      ∃ l1 l2, listPipelines dupNameGroups = l1 ++ firstX :: l2 ∧
        ∀ q ∈ l1, q.1.data.name ≠ "X" :=
  (find_returns_first dupNameGroups "X").2 firstX (by decide)
